import Mathlib

/-!
# Chat broker (`labs/lab02/backend/chatcore/chatcore.go`)

A shallow embedding of the message broker: the `Message` value, the routing
table `users`, the ingestion queue `input`, the `done` signal, and the four
operations `Run`, `SendMessage`, `RegisterUser`, `UnregisterUser`.

Go channels are references to runtime objects.  The recipients' channels live
in a heap indexed by a channel address; the routing table stores addresses
(`none` is the nil channel), so two identifiers may hold the same channel.
A `select` is modelled by the list of its enabled cases: the runtime picks any
enabled case, and blocks when the list is empty.  Each call and each iteration
of the loop of `Run` is one atomic action; the recipients act on their
channels between actions.  `Run` releases the read lock between the lookup of
a unicast recipient and the send: `unicastSend` and `Run_send` are that send
on its own, on the state in which it is made.
-/

namespace Chatcore

/-! ## Data model -/

/-- The `Message` struct of `chatcore.go`. -/
structure Message where
  Sender : String
  Recipient : String
  Content : String
  Broadcast : Bool
  Timestamp : Int
deriving DecidableEq, Repr

/-- Runtime state of one recipient channel (`chan Message`): the buffered
messages, oldest first, the number of sends it can hold before a receive, and
whether its owner has closed it.  A receiver parked on the channel counts as
one free slot. -/
structure Chan where
  buf : List Message
  cap : Nat
  closed : Bool
deriving DecidableEq, Repr

/-- Channel memory: the state of the channel at each address. -/
abbrev Heap := Nat → Chan

/-- A value of type `chan Message`: an address, or `none` for the nil channel. -/
abbrev ChanRef := Option Nat

/-- The `users` map, as the list of its entries in the order in which a
`range` over the map visits them.  A Go map has one entry per key
(`keysNodup`); the operations below do not need that to be defined. -/
abbrev Users := List (String × ChanRef)

/-- The non-nil `error` values of `ctx.Err()`. -/
inductive CtxErr where
  | Canceled
  | DeadlineExceeded
deriving DecidableEq, Repr

/-- The `Broker` struct, without its mutex.  `ctx` holds `b.ctx.Err()`: `none`
while the context is live (and then `b.ctx.Done()` is not closed), the error
once it is cancelled.  `input` is the content of the buffered channel
`b.input`, oldest first.  `done` tells whether `b.done` is closed. -/
structure Broker where
  ctx : Option CtxErr
  input : List Message
  users : Users
  done : Bool

/-- A broker together with the channel memory it delivers into.  `panicked`
tells whether the goroutine of `Run` has died in a run-time panic.  `enq` and
`log` are history variables: every message ever put on `input`, and every
successful send to a recipient channel (address, message), both oldest first.
No operation reads them. -/
structure State extends Broker where
  heap : Heap
  panicked : Bool
  enq : List Message
  log : List (Nat × Message)

/-- Capacity of `b.input`: `make(chan Message, 100)` in `NewBroker`. -/
def inputCap : Nat := 100

/-- `NewBroker(ctx)`: empty queue, empty routing table, `done` open. -/
def NewBroker (ctx : Option CtxErr) : Broker :=
  { ctx := ctx, input := [], users := [], done := false }

/-- The state right after `NewBroker(ctx)`, with the recipients' channels as
in `heap`: `Run` not started, nothing enqueued, nothing delivered. -/
def State.init (ctx : Option CtxErr) (heap : Heap) : State :=
  { toBroker := NewBroker ctx, heap := heap, panicked := false, enq := [], log := [] }

/-! ## Channel sends -/

/-- Heap with the channel at address `c` replaced by `v`. -/
def Heap.set (h : Heap) (c : Nat) (v : Chan) : Heap :=
  fun x => if x = c then v else h x

/-- Channel `ch` after a successful send of `msg`. -/
def Chan.push (ch : Chan) (msg : Message) : Chan :=
  { ch with buf := ch.buf ++ [msg] }

/-- Whether the channel can take one more message without a receive. -/
def Chan.hasRoom (ch : Chan) : Bool := decide (ch.buf.length < ch.cap)

/-- Result of `select { case ch <- msg: default: }`. -/
inductive TrySend where
  | sent (c : Nat) (h : Heap)
  | skipped
  | panic

/-- The statement `select { case ch <- msg: default: }`.  A send on a nil
channel is never ready, so `default` runs.  A send on a closed channel panics
(`send on closed channel`), also inside a `select` with a `default`.  On an
open channel the send case runs when the channel has room, else `default`. -/
def trySend (h : Heap) (ch : ChanRef) (msg : Message) : TrySend :=
  match ch with
  | none => .skipped
  | some c =>
    if (h c).closed then .panic
    else if (h c).hasRoom then .sent c (h.set c ((h c).push msg))
    else .skipped

/-- What a dispatch leaves behind: the channel memory, the addresses the
message was sent to (in order), and whether a send panicked. -/
structure Dispatched where
  heap : Heap
  delivered : List Nat
  panicked : Bool

/-- The loop `for _, ch := range b.users { select { case ch <- msg: default: } }`
of `Run`, over the entries in visiting order.  A panic ends the loop. -/
def broadcastLoop (msg : Message) : Users → Heap → Dispatched
  | [], h => ⟨h, [], false⟩
  | (_, ch) :: rest, h =>
    match trySend h ch msg with
    | .panic => ⟨h, [], true⟩
    | .skipped => broadcastLoop msg rest h
    | .sent c h1 =>
      let r := broadcastLoop msg rest h1
      ⟨r.heap, c :: r.delivered, r.panicked⟩

/-- The statement `if ok { select { case recv <- msg: default: } }` of `Run`
for a unicast message, made after `RUnlock`: `recv` is the channel the lookup
found, `h` the channel memory at the time of the send. -/
def unicastSend (h : Heap) (recv : ChanRef) (msg : Message) : Dispatched :=
  match trySend h recv msg with
  | .panic => ⟨h, [], true⟩
  | .skipped => ⟨h, [], false⟩
  | .sent c h1 => ⟨h1, [c], false⟩

/-- The body of `case msg := <-b.input:` in `Run`: the broadcast loop when
`msg.Broadcast`, else the lookup `recv, ok := b.users[msg.Recipient]` and, if
`ok`, one non-blocking send.  `users` is the table read under the read lock,
`h` the channel memory in which the sends are made. -/
def dispatch (users : Users) (h : Heap) (msg : Message) : Dispatched :=
  if msg.Broadcast then broadcastLoop msg users h
  else
    match users.lookup msg.Recipient with
    | none => ⟨h, [], false⟩
    | some recv => unicastSend h recv msg

/-! ## Run -/

/-- The case `case <-b.ctx.Done(): close(b.done); return` of `Run`, enabled
once the context is cancelled. -/
def Run_ctxDone (s : State) : Option State :=
  if s.ctx.isSome then some { s with done := true } else none

/-- The case `case msg := <-b.input:` of `Run`, enabled when the queue is not
empty: takes the oldest message off the queue and dispatches it, with no
action of another goroutine in between. -/
def Run_input (s : State) : Option State :=
  match s.input with
  | [] => none
  | msg :: rest =>
    let r := dispatch s.users s.heap msg
    some { s with input := rest, heap := r.heap, panicked := r.panicked,
                  log := s.log ++ r.delivered.map (fun c => (c, msg)) }

/-- The send of a unicast dispatch on its own: `recv` was found by the lookup
earlier, `t` is the state in which the send is made (the message is off the
queue already; the table and the channels may have changed since the
lookup). -/
def Run_send (t : State) (recv : ChanRef) (msg : Message) : State :=
  { t with heap := (unicastSend t.heap recv msg).heap,
           panicked := (unicastSend t.heap recv msg).panicked,
           log := t.log ++ (unicastSend t.heap recv msg).delivered.map (fun c => (c, msg)) }

/-- One iteration of the `for { select { ... } }` of `Run`: the states the
iteration may lead to, one per enabled case.  Empty when `Run` is parked, has
returned (`done` closed) or has died. -/
def Run_iter (s : State) : List State :=
  if s.panicked || s.done then []
  else (Run_ctxDone s).toList ++ (Run_input s).toList

/-! ## SendMessage -/

/-- The three cases of the `select` in `SendMessage`. -/
inductive SendCase where
  | enqueue
  | doneClosed
  | ctxDone
deriving DecidableEq, Repr

/-- The cases of the `select` of `SendMessage` that can proceed:
`b.input <- msg` when the queue has room, `<-b.done` when `done` is closed,
`<-b.ctx.Done()` when the context is cancelled. -/
def SendMessage_ready (s : State) : List SendCase :=
  (if s.input.length < inputCap then [SendCase.enqueue] else []) ++
  (if s.done then [SendCase.doneClosed] else []) ++
  (if s.ctx.isSome then [SendCase.ctxDone] else [])

/-- Effect and return value (`none` is the nil error) of one case. -/
def SendMessage_case (s : State) (msg : Message) : SendCase → Option CtxErr × State
  | .enqueue => (none, { s with input := s.input ++ [msg], enq := s.enq ++ [msg] })
  | .doneClosed => (none, s)
  | .ctxDone => (s.ctx, s)

/-- The `select` of `SendMessage`: its possible outcomes, one per enabled
case; the call blocks when there is none. -/
def SendMessage_select (s : State) (msg : Message) : List (Option CtxErr × State) :=
  (SendMessage_ready s).map (SendMessage_case s msg)

/-- `SendMessage(msg)`: the guard `if err := b.ctx.Err(); err != nil { return err }`
and then the `select`.  The list holds every outcome (returned error, state
left behind) the call can resolve with; it is empty when the call blocks. -/
def SendMessage (s : State) (msg : Message) : List (Option CtxErr × State) :=
  match s.ctx with
  | some e => [(some e, s)]
  | none => SendMessage_select s msg

/-! ## Registry -/

/-- The assignment `m[userID] = recv` on the entry list: the entry of an
existing key is overwritten in place, a new key gets a new entry. -/
def Users.insert : Users → String → ChanRef → Users
  | [], userID, recv => [(userID, recv)]
  | (k, r) :: rest, userID, recv =>
    if k == userID then (userID, recv) :: rest
    else (k, r) :: Users.insert rest userID recv

/-- The call `delete(m, userID)` on the entry list. -/
def Users.delete (users : Users) (userID : String) : Users :=
  users.filter (fun e => !(e.1 == userID))

/-- `RegisterUser(userID, recv)`: `b.users[userID] = recv`. -/
def RegisterUser (s : State) (userID : String) (recv : ChanRef) : State :=
  { s with users := s.users.insert userID recv }

/-- `UnregisterUser(userID)`: `delete(b.users, userID)`. -/
def UnregisterUser (s : State) (userID : String) : State :=
  { s with users := s.users.delete userID }

/-! ## Predicates on tables and channel memory -/

/-- The channels of the table, nil entries left out, in visiting order. -/
def Users.chans (users : Users) : List Nat := users.filterMap Prod.snd

/-- One entry per key, as in every Go map. -/
def keysNodup (users : Users) : Prop := (users.map Prod.fst).Nodup

/-- No channel is registered under two identifiers. -/
def aliasFree (users : Users) : Prop := users.chans.Nodup

/-- No registered channel has been closed. -/
def noClosed (users : Users) (h : Heap) : Prop := ∀ c ∈ users.chans, (h c).closed = false

/-- Whether a non-blocking send on `ch` would run its send case: the channel
is not nil, is open and has room. -/
def canAccept (h : Heap) : ChanRef → Bool
  | none => false
  | some c => !(h c).closed && (h c).hasRoom

instance (users : Users) : Decidable (keysNodup users) := by
  unfold keysNodup; infer_instance

instance (users : Users) : Decidable (aliasFree users) := by
  unfold aliasFree; infer_instance

instance (users : Users) (h : Heap) : Decidable (noClosed users h) := by
  unfold noClosed; infer_instance

/-! ## Concrete inputs -/

/-- A broadcast message. -/
def msgAll : Message :=
  { Sender := "alice", Recipient := "", Content := "hello", Broadcast := true, Timestamp := 1 }

/-- A message addressed to `"bob"`. -/
def msgBob : Message :=
  { Sender := "alice", Recipient := "bob", Content := "hello", Broadcast := false, Timestamp := 2 }

/-- Channel memory in which every channel is open and empty with capacity `n`. -/
def openHeap (n : Nat) : Heap := fun _ => { buf := [], cap := n, closed := false }

/-- Channel memory in which channel `0` is closed (empty, capacity 2) and every
other channel is open and empty with capacity 2. -/
def closedHeap : Heap := fun c => { buf := [], cap := 2, closed := decide (c = 0) }

/-- A state with the given queue, table and channel memory: live context,
`done` open, no panic, nothing delivered yet. -/
def mkState (input : List Message) (users : Users) (heap : Heap) : State :=
  { toBroker := { ctx := none, input := input, users := users, done := false },
    heap := heap, panicked := false, enq := input, log := [] }

/-! ## Interleavings -/

/-- The atomic actions of the broker and of its environment.  `k` selects
among the enabled cases of a `select`. -/
inductive Op where
  /-- A `SendMessage(msg)` call that runs its guard and resolves at once. -/
  | submit (msg : Message) (k : Nat)
  /-- A `SendMessage(msg)` call that passed its guard earlier and whose
  `select` resolves now. -/
  | resume (msg : Message) (k : Nat)
  /-- One iteration of the loop of `Run`, its dispatch made in one piece. -/
  | run (k : Nat)
  | register (userID : String) (recv : ChanRef)
  | unregister (userID : String)
  /-- The governing context is cancelled with error `e`. -/
  | cancel (e : CtxErr)
  /-- The recipients act on their channels (receive, close, ...), leaving the
  channel memory `heap`. -/
  | env (heap : Heap)
  /-- The next `range` visits the entries of the map in the order `users`. -/
  | reorder (users : Users)

/-- Effect of one action; an action that is not enabled leaves the state as
it is. -/
def step (s : State) : Op → State
  | .submit msg k =>
    match (SendMessage s msg)[k]? with
    | some o => o.2
    | none => s
  | .resume msg k =>
    match (SendMessage_select s msg)[k]? with
    | some o => o.2
    | none => s
  | .run k =>
    match (Run_iter s)[k]? with
    | some s1 => s1
    | none => s
  | .register userID recv => RegisterUser s userID recv
  | .unregister userID => UnregisterUser s userID
  | .cancel e =>
    match s.ctx with
    | none => { s with ctx := some e }
    | some _ => s
  | .env heap => { s with heap := heap }
  | .reorder users => if users.Perm s.users then { s with users := users } else s

/-- The state after the actions `ops`, in order. -/
def exec (s : State) (ops : List Op) : State := ops.foldl step s

/-- `P` holds in the state before each action of the run. -/
def alongRun (P : State → Prop) : State → List Op → Prop
  | _, [] => True
  | s, op :: ops => P s ∧ alongRun P (step s op) ops

/-- The messages sent to channel `c`, oldest first. -/
def State.deliveredTo (s : State) (c : Nat) : List Message :=
  (s.log.filter (fun e => e.1 == c)).map Prod.snd

/-- The messages taken off the queue so far: what was put on it and is not
on it any more. -/
def State.dispatched (s : State) : List Message :=
  s.enq.take (s.enq.length - s.input.length)

/-- The state changes an action can make. -/
inductive Effect (s : State) : State → Prop where
  | skip : Effect s s
  | enqueue (m : Message) :
      Effect s { s with input := s.input ++ [m], enq := s.enq ++ [m] }
  | closeDone (hd : s.done = false) (hc : s.ctx.isSome = true) :
      Effect s { s with done := true }
  | dispatch (m : Message) (rest : List Message) (hd : s.done = false)
      (hp : s.panicked = false) (hin : s.input = m :: rest) :
      Effect s { s with
        input := rest, heap := (dispatch s.users s.heap m).heap,
        panicked := (dispatch s.users s.heap m).panicked,
        log := s.log ++ (dispatch s.users s.heap m).delivered.map (fun c => (c, m)) }
  | table (users : Users) : Effect s { s with users := users }
  | cancel (e : CtxErr) (hc : s.ctx = none) : Effect s { s with ctx := some e }
  | heap (h : Heap) : Effect s { s with heap := h }

/-- Whether `m` is to be delivered to the identifier `id`: a broadcast, or a
unicast with recipient `id`. -/
def addressedTo (id : String) (m : Message) : Bool := m.Broadcast || m.Recipient == id

/-- The identifier `id` is registered with channel `c`, which has room, and no
registered channel is closed. -/
def alwaysReady (id : String) (c : Nat) (s : State) : Prop :=
  noClosed s.users s.heap ∧ s.users.lookup id = some (some c) ∧ (s.heap c).hasRoom = true

/-! # Theorems -/

/-! ## Sends and the broadcast loop -/

theorem trySend_sent {h : Heap} {ch : ChanRef} {msg : Message} {c : Nat} {h1 : Heap}
    (e : trySend h ch msg = .sent c h1) :
    ch = some c ∧ (h c).closed = false ∧ (h c).hasRoom = true ∧
      h1 = h.set c ((h c).push msg) := by
  unfold trySend at e
  cases ch with
  | none => simp at e
  | some d =>
    by_cases hc : (h d).closed = true
    · simp [hc] at e
    · by_cases hr : (h d).hasRoom = true
      · simp [hc, hr] at e
        obtain ⟨rfl, rfl⟩ := e
        simp [hr] at hc ⊢
        exact hc
      · simp [hc, hr] at e

theorem trySend_skipped {h : Heap} {ch : ChanRef} {msg : Message}
    (e : trySend h ch msg = .skipped) : canAccept h ch = false := by
  unfold trySend at e
  cases ch with
  | none => rfl
  | some d =>
    by_cases hc : (h d).closed = true
    · simp [hc] at e
    · by_cases hr : (h d).hasRoom = true
      · simp [hc, hr] at e
      · simp [canAccept, hr]

theorem trySend_panic {h : Heap} {ch : ChanRef} {msg : Message}
    (e : trySend h ch msg = .panic) : ∃ c, ch = some c ∧ (h c).closed = true := by
  unfold trySend at e
  cases ch with
  | none => simp at e
  | some d =>
    by_cases hc : (h d).closed = true
    · exact ⟨d, rfl, hc⟩
    · by_cases hr : (h d).hasRoom = true
      · simp [hc, hr] at e
      · simp [hc, hr] at e

theorem broadcastLoop_heap (msg : Message) (users : Users) (h : Heap) (c : Nat) :
    (broadcastLoop msg users h).heap c =
      { h c with buf := (h c).buf ++
          List.replicate ((broadcastLoop msg users h).delivered.count c) msg } := by
  induction users generalizing h with
  | nil => simp [broadcastLoop]
  | cons e rest ih =>
    obtain ⟨id, ch⟩ := e
    cases hts : trySend h ch msg with
    | panic => simp [broadcastLoop, hts]
    | skipped => simpa [broadcastLoop, hts] using ih h
    | sent c1 h1 =>
      obtain ⟨-, -, -, rfl⟩ := trySend_sent hts
      simp only [broadcastLoop, hts]
      rw [ih]
      by_cases hcc : c = c1
      · subst hcc
        simp [Heap.set, Chan.push, List.replicate_succ]
      · have : ¬ c1 = c := fun e => hcc e.symm
        simp [Heap.set, hcc, List.count_cons, this]

theorem broadcastLoop_delivered_sublist (msg : Message) (users : Users) (h : Heap) :
    (broadcastLoop msg users h).delivered.Sublist users.chans := by
  induction users generalizing h with
  | nil => simp [broadcastLoop, Users.chans]
  | cons e rest ih =>
    obtain ⟨id, ch⟩ := e
    cases hts : trySend h ch msg with
    | panic => simp [broadcastLoop, hts]
    | skipped =>
      simp only [broadcastLoop, hts]
      cases ch with
      | none => simpa [Users.chans] using ih h
      | some d =>
        have := ih h
        simp only [Users.chans, List.filterMap_cons] at this ⊢
        exact this.cons d
    | sent c1 h1 =>
      obtain ⟨rfl, -, -, -⟩ := trySend_sent hts
      simp only [broadcastLoop, hts]
      have := ih h1
      simp only [Users.chans, List.filterMap_cons] at this ⊢
      exact this.cons₂ c1

theorem closed_set_push (h : Heap) (c : Nat) (msg : Message) (x : Nat) :
    ((h.set c ((h c).push msg)) x).closed = (h x).closed := by
  by_cases e : x = c
  · subst e; simp [Heap.set, Chan.push]
  · simp [Heap.set, e]

theorem broadcastLoop_panicked_iff (msg : Message) (users : Users) (h : Heap) :
    (broadcastLoop msg users h).panicked = true ↔ ∃ c ∈ users.chans, (h c).closed = true := by
  induction users generalizing h with
  | nil => simp [broadcastLoop, Users.chans]
  | cons e rest ih =>
    obtain ⟨id, ch⟩ := e
    cases hts : trySend h ch msg with
    | panic =>
      obtain ⟨c, rfl, hc⟩ := trySend_panic hts
      simp only [broadcastLoop, hts, true_iff]
      exact ⟨c, by simp [Users.chans], hc⟩
    | skipped =>
      have hs := trySend_skipped hts
      simp only [broadcastLoop, hts]
      rw [ih]
      cases ch with
      | none => simp [Users.chans]
      | some d =>
        have hd : (h d).closed = false := by
          unfold trySend at hts
          by_cases hc : (h d).closed = true
          · simp [hc] at hts
          · simpa using hc
        constructor
        · rintro ⟨c, hc, hcl⟩
          exact ⟨c, by simp [Users.chans] at hc ⊢; exact Or.inr hc, hcl⟩
        · rintro ⟨c, hc, hcl⟩
          simp only [Users.chans, List.filterMap_cons, List.mem_cons] at hc
          rcases hc with rfl | hc
          · rw [hd] at hcl; cases hcl
          · exact ⟨c, hc, hcl⟩
    | sent c1 h1 =>
      obtain ⟨rfl, hd, -, rfl⟩ := trySend_sent hts
      simp only [broadcastLoop, hts]
      rw [ih]
      simp only [closed_set_push]
      constructor
      · rintro ⟨c, hc, hcl⟩
        exact ⟨c, by simp [Users.chans] at hc ⊢; exact Or.inr hc, hcl⟩
      · rintro ⟨c, hc, hcl⟩
        simp only [Users.chans, List.filterMap_cons, List.mem_cons] at hc
        rcases hc with rfl | hc
        · rw [hd] at hcl; cases hcl
        · exact ⟨c, hc, hcl⟩

theorem set_push_of_ne (h : Heap) (c : Nat) (msg : Message) {x : Nat} (e : x ≠ c) :
    (h.set c ((h c).push msg)) x = h x := by
  simp [Heap.set, e]

/-- With pairwise distinct open channels the loop sends to exactly the
registered channels that had room when it started. -/
theorem broadcastLoop_delivered_eq (msg : Message) (users : Users) (h : Heap)
    (ha : aliasFree users) (hn : noClosed users h) :
    (broadcastLoop msg users h).delivered = users.chans.filter (fun c => (h c).hasRoom) := by
  induction users generalizing h with
  | nil => simp [broadcastLoop, Users.chans]
  | cons e rest ih =>
    obtain ⟨id, ch⟩ := e
    cases ch with
    | none =>
      have hts : trySend h none msg = .skipped := rfl
      simp only [broadcastLoop, hts]
      have := ih h (by simpa [aliasFree, Users.chans] using ha)
        (by simpa [noClosed, Users.chans] using hn)
      simpa [Users.chans] using this
    | some d =>
      have ha1 : d ∉ (Users.chans rest) ∧ aliasFree rest := by
        simpa [aliasFree, Users.chans] using ha
      have hn1 : (h d).closed = false ∧ noClosed rest h := by
        simpa [noClosed, Users.chans] using hn
      by_cases hr : (h d).hasRoom = true
      · have hts : trySend h (some d) msg = .sent d (h.set d ((h d).push msg)) := by
          simp [trySend, hn1.1, hr]
        simp only [broadcastLoop, hts]
        rw [ih _ ha1.2 (fun c hc => by rw [closed_set_push]; exact hn1.2 c hc)]
        have hf : (Users.chans rest).filter (fun c => ((h.set d ((h d).push msg)) c).hasRoom)
            = (Users.chans rest).filter (fun c => (h c).hasRoom) := by
          apply List.filter_congr
          intro x hx
          have : x ≠ d := fun e => ha1.1 (e ▸ hx)
          rw [set_push_of_ne h d msg this]
        rw [hf]
        simp [Users.chans, hr]
      · have hts : trySend h (some d) msg = .skipped := by
          simp [trySend, hn1.1, hr]
        simp only [broadcastLoop, hts]
        rw [ih h ha1.2 hn1.2]
        simp [Users.chans, hr]

/-- On a table without closed channels, the entries that can accept are as
many as the registered channels with room. -/
theorem countP_canAccept (users : Users) (h : Heap) (hn : noClosed users h) :
    users.countP (fun e => canAccept h e.2) =
      (users.chans.filter (fun c => (h c).hasRoom)).length := by
  induction users with
  | nil => simp [Users.chans]
  | cons e rest ih =>
    obtain ⟨id, ch⟩ := e
    cases ch with
    | none =>
      have := ih (by simpa [noClosed, Users.chans] using hn)
      simpa [Users.chans, canAccept, List.countP_cons] using this
    | some d =>
      have hn1 : (h d).closed = false ∧ noClosed rest h := by
        simpa [noClosed, Users.chans] using hn
      have := ih hn1.2
      by_cases hr : (h d).hasRoom = true
      · simp [Users.chans, canAccept, List.countP_cons, hn1.1, hr, List.filter_cons] at this ⊢
        exact this
      · simp [Users.chans, canAccept, List.countP_cons, hn1.1, hr, List.filter_cons] at this ⊢
        exact this

theorem mem_chans_of_mem {users : Users} {id : String} {c : Nat}
    (h : (id, some c) ∈ users) : c ∈ users.chans := by
  simp only [Users.chans, List.mem_filterMap]
  exact ⟨(id, some c), h, rfl⟩

theorem broadcastLoop_heap_of_not_mem (msg : Message) (users : Users) (h : Heap) (c : Nat)
    (hc : c ∉ users.chans) : (broadcastLoop msg users h).heap c = h c := by
  rw [broadcastLoop_heap]
  have : c ∉ (broadcastLoop msg users h).delivered :=
    fun hm => hc ((broadcastLoop_delivered_sublist msg users h).subset hm)
  simp [List.count_eq_zero_of_not_mem this]

theorem Run_input_cons (s : State) (m : Message) (rest : List Message)
    (hin : s.input = m :: rest) :
    Run_input s = some { s with
      input := rest, heap := (dispatch s.users s.heap m).heap,
      panicked := (dispatch s.users s.heap m).panicked,
      log := s.log ++ (dispatch s.users s.heap m).delivered.map (fun c => (c, m)) } := by
  simp only [Run_input, hin]

theorem dispatch_broadcast (users : Users) (h : Heap) (m : Message) (hb : m.Broadcast = true) :
    dispatch users h m = broadcastLoop m users h := by
  simp [dispatch, hb]

/-- C1, amended: on a table whose registered channels are pairwise distinct
and none of them closed, the dispatch step of `Run` on a broadcast message `m`
appends `m` once to every registered channel that has room, leaves every
registered channel without room and every unregistered channel unchanged,
makes exactly `N - M` deliveries (`N` entries, `M` of them unable to accept),
each to a different channel, leaves the table unchanged and does not panic. -/
theorem broadcast_fan_out (s : State) (m : Message) (rest : List Message)
    (hin : s.input = m :: rest) (hb : m.Broadcast = true)
    (ha : aliasFree s.users) (hn : noClosed s.users s.heap) :
    ∃ s1, Run_input s = some s1 ∧ s1.users = s.users ∧ s1.input = rest ∧
      s1.panicked = false ∧
      (∀ c ∈ s.users.chans, (s.heap c).hasRoom = true → s1.heap c = (s.heap c).push m) ∧
      (∀ c ∈ s.users.chans, (s.heap c).hasRoom = false → s1.heap c = s.heap c) ∧
      (∀ c, c ∉ s.users.chans → s1.heap c = s.heap c) ∧
      ∃ d : List Nat, s1.log = s.log ++ d.map (fun c => (c, m)) ∧ d.Nodup ∧
        d.length = s.users.length - s.users.countP (fun e => !canAccept s.heap e.2) := by
  have hd := broadcastLoop_delivered_eq m s.users s.heap ha hn
  have hp : (broadcastLoop m s.users s.heap).panicked = false := by
    cases hpp : (broadcastLoop m s.users s.heap).panicked with
    | false => rfl
    | true =>
      obtain ⟨c, hc, hcl⟩ := (broadcastLoop_panicked_iff m s.users s.heap).1 hpp
      rw [hn c hc] at hcl; cases hcl
  have hnd : (broadcastLoop m s.users s.heap).delivered.Nodup :=
    (broadcastLoop_delivered_sublist m s.users s.heap).nodup ha
  refine ⟨_, Run_input_cons s m rest hin, rfl, rfl, ?hp, ?h1, ?h2, ?h3,
    (broadcastLoop m s.users s.heap).delivered, ?hlog, hnd, ?hlen⟩
  case hp => simpa only [dispatch_broadcast _ _ _ hb] using hp
  case hlog => simp only [dispatch_broadcast _ _ _ hb]
  case h1 =>
    intro c hc hr
    simp only [dispatch_broadcast _ _ _ hb]
    rw [broadcastLoop_heap]
    have hmem : c ∈ (broadcastLoop m s.users s.heap).delivered := by
      rw [hd]; exact List.mem_filter.2 ⟨hc, hr⟩
    rw [List.count_eq_one_of_mem hnd hmem]
    rfl
  case h2 =>
    intro c hc hr
    simp only [dispatch_broadcast _ _ _ hb]
    rw [broadcastLoop_heap]
    have hmem : c ∉ (broadcastLoop m s.users s.heap).delivered := by
      rw [hd]; intro hm
      have := (List.mem_filter.1 hm).2
      rw [hr] at this; cases this
    simp [List.count_eq_zero_of_not_mem hmem]
  case h3 =>
    intro c hc
    simp only [dispatch_broadcast _ _ _ hb]
    exact broadcastLoop_heap_of_not_mem m s.users s.heap c hc
  case hlen =>
    rw [hd, ← countP_canAccept s.users s.heap hn]
    have := List.length_eq_countP_add_countP
      (fun e : String × ChanRef => canAccept s.heap e.2) s.users
    simp only [Bool.not_eq_true] at this
    have e2 : s.users.countP (fun e => !canAccept s.heap e.2) =
        s.users.countP (fun e => decide (canAccept s.heap e.2 = false)) := by
      congr 1; funext e; cases canAccept s.heap e.2 <;> rfl
    rw [e2]
    omega

theorem broadcast_fan_out_witness :
    ∃ s1, Run_input (mkState [msgAll] [("a", some 0), ("b", some 1)] (openHeap 1)) = some s1 ∧
      s1.heap 0 = (openHeap 1 0).push msgAll := by
  obtain ⟨s1, h1, -, -, -, h2, -⟩ :=
    broadcast_fan_out (mkState [msgAll] [("a", some 0), ("b", some 1)] (openHeap 1))
      msgAll [] rfl rfl (by decide) (by decide)
  exact ⟨s1, h1, h2 0 (by decide) (by decide)⟩

/-- C1 as stated fails.  Two identifiers sharing channel 0 (open, empty,
capacity 2): the broadcast is sent to that one channel twice, not to two
channels once each.  The same with capacity 1: both recipients' channel has
room and none is full, so `N - M = 2`, yet one delivery is made.  One
identifier whose channel 0 is closed with room in its buffer: the dispatch
panics and nothing is appended. -/
theorem broadcast_fan_out_counterexample :
    (Run_input (mkState [msgAll] [("a", some 0), ("b", some 0)] (openHeap 2))).map
        (fun s1 => ((s1.heap 0).buf, s1.log, s1.panicked))
      = some ([msgAll, msgAll], [(0, msgAll), (0, msgAll)], false) ∧
    (Run_input (mkState [msgAll] [("a", some 0), ("b", some 0)] (openHeap 1))).map
        (fun s1 => ((s1.heap 0).buf, s1.log, s1.panicked))
      = some ([msgAll], [(0, msgAll)], false) ∧
    (closedHeap 0).hasRoom = true ∧
    (Run_input (mkState [msgAll] [("a", some 0)] closedHeap)).map
        (fun s1 => ((s1.heap 0).buf, s1.log, s1.panicked))
      = some ([], [], true) :=
  ⟨by decide, by decide, by decide, by decide⟩

theorem dispatch_unicast (users : Users) (h : Heap) (m : Message) (ref : ChanRef)
    (hb : m.Broadcast = false) (hl : users.lookup m.Recipient = some ref) :
    dispatch users h m =
      match trySend h ref m with
      | .panic => ⟨h, [], true⟩
      | .skipped => ⟨h, [], false⟩
      | .sent c h1 => ⟨h1, [c], false⟩ := by
  simp [dispatch, unicastSend, hb, hl]

theorem dispatch_absent (users : Users) (h : Heap) (m : Message)
    (hb : m.Broadcast = false) (hl : users.lookup m.Recipient = none) :
    dispatch users h m = ⟨h, [], false⟩ := by
  simp [dispatch, hb, hl]

theorem trySend_of_canAccept {h : Heap} {ref : ChanRef} (m : Message)
    (hc : canAccept h ref = true) :
    ∃ c, ref = some c ∧ trySend h ref m = .sent c (h.set c ((h c).push m)) := by
  cases ref with
  | none => simp [canAccept] at hc
  | some c =>
    simp only [canAccept, Bool.and_eq_true, Bool.not_eq_true'] at hc
    exact ⟨c, rfl, by simp [trySend, hc.1, hc.2]⟩

theorem trySend_of_not_canAccept {h : Heap} {ref : ChanRef} (m : Message)
    (hc : canAccept h ref = false) (ho : ∀ c, ref = some c → (h c).closed = false) :
    trySend h ref m = .skipped := by
  cases ref with
  | none => rfl
  | some c =>
    have hcl := ho c rfl
    simp only [canAccept, hcl, Bool.not_false, Bool.true_and] at hc
    simp [trySend, hcl, hc]

/-- C2, amended: the dispatch step of `Run` on a unicast message `m` whose
recipient is registered with a channel that is not closed makes at most one
delivery: if that channel can accept, `m` is appended to it (one delivery);
if it is full or nil, `m` is dropped and nothing changes; in both cases every
channel other than the recipient's own, and the routing table, are unchanged,
and there is no panic. -/
theorem unicast_delivery (s : State) (m : Message) (rest : List Message) (ref : ChanRef)
    (hin : s.input = m :: rest) (hb : m.Broadcast = false)
    (hl : s.users.lookup m.Recipient = some ref)
    (ho : ∀ c, ref = some c → (s.heap c).closed = false) :
    ∃ s1, Run_input s = some s1 ∧ s1.users = s.users ∧ s1.input = rest ∧
      s1.panicked = false ∧
      (canAccept s.heap ref = true →
        ∃ c, ref = some c ∧ s1.heap c = (s.heap c).push m ∧ s1.log = s.log ++ [(c, m)]) ∧
      (canAccept s.heap ref = false → s1.heap = s.heap ∧ s1.log = s.log) ∧
      (∀ c, ref ≠ some c → s1.heap c = s.heap c) := by
  refine ⟨_, Run_input_cons s m rest hin, rfl, rfl, ?hp, ?h1, ?h2, ?h3⟩
  all_goals simp only [dispatch_unicast _ _ _ _ hb hl]
  case hp =>
    cases hca : canAccept s.heap ref with
    | true =>
      obtain ⟨c, -, e⟩ := trySend_of_canAccept m hca
      simp [e]
    | false => simp [trySend_of_not_canAccept m hca ho]
  case h1 =>
    intro hca
    obtain ⟨c, rfl, e⟩ := trySend_of_canAccept m hca
    exact ⟨c, rfl, by simp [e, Heap.set], by simp [e]⟩
  case h2 =>
    intro hca
    simp [trySend_of_not_canAccept m hca ho]
  case h3 =>
    intro c hne
    cases hca : canAccept s.heap ref with
    | true =>
      obtain ⟨d, rfl, e⟩ := trySend_of_canAccept m hca
      have : c ≠ d := fun e => hne (by rw [e])
      simp [e, Heap.set, this]
    | false => simp [trySend_of_not_canAccept m hca ho]

theorem unicast_delivery_witness :
    ∃ s1, Run_input (mkState [msgBob] [("bob", some 0), ("eve", some 1)] (openHeap 1)) = some s1 ∧
      s1.heap 1 = openHeap 1 1 := by
  obtain ⟨s1, h1, -, -, -, -, -, h2⟩ :=
    unicast_delivery (mkState [msgBob] [("bob", some 0), ("eve", some 1)] (openHeap 1))
      msgBob [] (some 0) rfl rfl (by decide) (by intro c _; rfl)
  exact ⟨s1, h1, h2 1 (by decide)⟩

/-- C2 as stated fails.  `"bob"` and `"eve"` share channel 0: a message for
`"bob"` changes the channel of the other identifier `"eve"`.  `"bob"` alone
with the closed channel 0, which has room in its buffer: the message is not
appended and the dispatch panics. -/
theorem unicast_delivery_counterexample :
    List.lookup "eve" [("bob", some 0), ("eve", some 0)] = some (some 0) ∧
    (Run_input (mkState [msgBob] [("bob", some 0), ("eve", some 0)] (openHeap 2))).map
        (fun s1 => (s1.heap 0).buf) = some [msgBob] ∧
    (closedHeap 0).hasRoom = true ∧
    (Run_input (mkState [msgBob] [("bob", some 0)] closedHeap)).map
        (fun s1 => ((s1.heap 0).buf, s1.panicked)) = some ([], true) := by
  decide

/-! ## SendMessage -/

theorem SendMessage_live (s : State) (m : Message) (hc : s.ctx = none) :
    SendMessage s m = SendMessage_select s m := by
  simp [SendMessage, hc]

/-- C3: with a live context and room in the queue, `SendMessage` of any
message resolves, and only with the nil error (the message is put on the
queue, or `done` is closed and the state is left as it is); and when the
message is unicast with a recipient that has no entry in the table, the
dispatch step of `Run` on it changes nothing but the queue, from which the
message is gone: no channel, no delivery record, the table stays, no panic. -/
theorem unicast_absent_recipient (s : State) (m : Message)
    (hc : s.ctx = none) (hroom : s.input.length < inputCap)
    (hb : m.Broadcast = false) (hl : s.users.lookup m.Recipient = none) :
    SendMessage s m ≠ [] ∧
    (∀ o ∈ SendMessage s m, o.1 = none ∧
      (o.2 = s ∨ o.2 = { s with input := s.input ++ [m], enq := s.enq ++ [m] })) ∧
    (∀ s1 rest, s1.users = s.users → s1.input = m :: rest → s1.panicked = false →
      Run_input s1 = some { s1 with input := rest }) := by
  refine ⟨?_, ?_, ?_⟩
  · simp [SendMessage_live s m hc, SendMessage_select, SendMessage_ready, hroom]
  · intro o ho
    simp only [SendMessage_live s m hc, SendMessage_select, SendMessage_ready, hroom, hc,
      if_true, Option.isSome_none, List.map_append, List.mem_append, List.mem_map] at ho
    rcases ho with (⟨k, hk, rfl⟩ | ⟨k, hk, rfl⟩) | ⟨k, hk, rfl⟩
    · simp only [List.mem_singleton] at hk
      subst hk
      exact ⟨rfl, Or.inr rfl⟩
    · by_cases hd : s.done = true
      · simp only [hd, if_true, List.mem_singleton] at hk
        subst hk
        exact ⟨rfl, Or.inl rfl⟩
      · simp [hd] at hk
    · simp at hk
  · intro s1 rest hu hin hp
    rw [Run_input_cons s1 m rest hin, dispatch_absent _ _ _ hb (hu ▸ hl)]
    simp [← hp]

theorem unicast_absent_recipient_witness :
    SendMessage (mkState [] [("eve", some 0)] (openHeap 1)) msgBob ≠ [] :=
  (unicast_absent_recipient (mkState [] [("eve", some 0)] (openHeap 1)) msgBob
    rfl (by decide) rfl (by decide)).1

theorem SendMessage_guard (s : State) (m : Message) (e : CtxErr)
    (hc : s.ctx = some e) : SendMessage s m = [(some e, s)] := by
  simp [SendMessage, hc]

/-- C4: when the context is already cancelled, `SendMessage` has exactly one
outcome: it returns the context's error and leaves the whole state, the queue
included, as it was, whatever the queue holds and whether or not `done` is
closed. -/
theorem SendMessage_cancelled (s : State) (m : Message) (e : CtxErr)
    (hc : s.ctx = some e) : SendMessage s m = [(some e, s)] :=
  SendMessage_guard s m e hc

theorem SendMessage_cancelled_witness :
    SendMessage { mkState [] [] (openHeap 1) with ctx := some CtxErr.Canceled } msgBob =
      [(some CtxErr.Canceled, { mkState [] [] (openHeap 1) with ctx := some CtxErr.Canceled })] :=
  SendMessage_cancelled _ msgBob CtxErr.Canceled rfl

/-- C10, amended: a `SendMessage` call resolves exactly when the context is
cancelled, or the queue has room, or `done` is closed; with a full queue, a
live context and `done` open no case of its `select` is enabled and the call
blocks. -/
theorem SendMessage_resolves_iff (s : State) (m : Message) :
    SendMessage s m ≠ [] ↔
      (s.ctx ≠ none ∨ s.input.length < inputCap ∨ s.done = true) := by
  cases hc : s.ctx with
  | some e => simp [SendMessage, hc]
  | none =>
    simp only [SendMessage_live s m hc, SendMessage_select, SendMessage_ready, hc,
      Option.isSome_none, ne_eq, not_true_eq_false, false_or]
    by_cases hr : s.input.length < inputCap <;> by_cases hd : s.done = true <;>
      simp [hr, hd]

/-! ## Steps of an interleaving -/

/-- What a `select` of `SendMessage` can do to the state: nothing, or put the
message on the queue. -/
theorem SendMessage_select_effect (s : State) (m : Message) (o : Option CtxErr × State)
    (ho : o ∈ SendMessage_select s m) :
    o.2 = s ∨ o.2 = { s with input := s.input ++ [m], enq := s.enq ++ [m] } := by
  simp only [SendMessage_select, List.mem_map] at ho
  obtain ⟨k, -, rfl⟩ := ho
  cases k
  · exact Or.inr rfl
  · exact Or.inl rfl
  · exact Or.inl rfl

theorem SendMessage_effect (s : State) (m : Message) (o : Option CtxErr × State)
    (ho : o ∈ SendMessage s m) :
    o.2 = s ∨ o.2 = { s with input := s.input ++ [m], enq := s.enq ++ [m] } := by
  unfold SendMessage at ho
  split at ho
  · simp only [List.mem_singleton] at ho
    subst ho
    exact Or.inl rfl
  · exact SendMessage_select_effect s m o ho

/-- What one iteration of `Run` can do: close `done` once the context is
cancelled, or take the oldest message off the queue and dispatch it. -/
theorem Run_iter_effect (s s1 : State) (h : s1 ∈ Run_iter s) :
    s.done = false ∧ s.panicked = false ∧
    ((s.ctx.isSome = true ∧ s1 = { s with done := true }) ∨
     (∃ m rest, s.input = m :: rest ∧ s1 = { s with
        input := rest, heap := (dispatch s.users s.heap m).heap,
        panicked := (dispatch s.users s.heap m).panicked,
        log := s.log ++ (dispatch s.users s.heap m).delivered.map (fun c => (c, m)) })) := by
  unfold Run_iter at h
  by_cases hg : (s.panicked || s.done) = true
  · simp [hg] at h
  · simp only [hg, Bool.false_eq_true, if_false, List.mem_append, Option.mem_toList,
      Option.mem_def] at h
    simp only [Bool.or_eq_true, not_or, Bool.not_eq_true] at hg
    refine ⟨hg.2, hg.1, ?_⟩
    rcases h with h | h
    · left
      unfold Run_ctxDone at h
      by_cases hc : s.ctx.isSome = true
      · simp only [hc, if_true, Option.some.injEq] at h
        exact ⟨hc, h.symm⟩
      · simp [hc] at h
    · right
      cases hin : s.input with
      | nil => simp [Run_input, hin] at h
      | cons m rest =>
        rw [Run_input_cons s m rest hin, Option.some.injEq] at h
        exact ⟨m, rest, rfl, h.symm⟩

theorem step_effect (s : State) (op : Op) : Effect s (step s op) := by
  cases op with
  | submit m k =>
    simp only [step]
    cases hk : (SendMessage s m)[k]? with
    | none => exact .skip
    | some o =>
      rcases SendMessage_effect s m o (List.getElem?_mem hk) with e | e
      · simp only [e]; exact .skip
      · simp only [e]; exact .enqueue m
  | resume m k =>
    simp only [step]
    cases hk : (SendMessage_select s m)[k]? with
    | none => exact .skip
    | some o =>
      rcases SendMessage_select_effect s m o (List.getElem?_mem hk) with e | e
      · simp only [e]; exact .skip
      · simp only [e]; exact .enqueue m
  | run k =>
    simp only [step]
    cases hk : (Run_iter s)[k]? with
    | none => exact .skip
    | some s1 =>
      obtain ⟨hd, hp, ⟨hc, e⟩ | ⟨m, rest, hin, e⟩⟩ :=
        Run_iter_effect s s1 (List.getElem?_mem hk)
      · simp only [e]; exact .closeDone hd hc
      · simp only [e]; exact .dispatch m rest hd hp hin
  | register id recv => exact .table _
  | unregister id => exact .table _
  | cancel e =>
    simp only [step]
    cases hc : s.ctx with
    | none => exact .cancel e hc
    | some e0 => exact .skip
  | env hp => exact .heap hp
  | reorder us =>
    simp only [step]
    by_cases hp : us.Perm s.users
    · simp only [hp, if_true]; exact .table us
    · simp only [hp, if_false]; exact .skip

/-- Invariant of the broker: `done` is closed only after the context was
cancelled. -/
theorem step_done_cancelled (s : State) (op : Op)
    (h : s.done = true → s.ctx.isSome = true) :
    (step s op).done = true → (step s op).ctx.isSome = true := by
  have he := step_effect s op
  generalize step s op = s1 at he ⊢
  cases he with
  | skip => exact h
  | enqueue m => exact h
  | closeDone hd hc => exact fun _ => hc
  | dispatch m rest hd hp hin => exact h
  | table us => exact h
  | cancel e hc => exact fun _ => rfl
  | heap hp => exact h

theorem exec_done_cancelled (s : State) (ops : List Op)
    (h : s.done = true → s.ctx.isSome = true) :
    (exec s ops).done = true → (exec s ops).ctx.isSome = true := by
  induction ops generalizing s with
  | nil => exact h
  | cons op ops ih => exact ih (step s op) (step_done_cancelled s op h)

/-- Once `done` is closed it stays closed and no further delivery is made. -/
theorem step_after_done (s : State) (op : Op) (h : s.done = true) :
    (step s op).done = true ∧ (step s op).log = s.log := by
  have he := step_effect s op
  generalize step s op = s1 at he ⊢
  cases he with
  | skip => exact ⟨h, rfl⟩
  | enqueue m => exact ⟨h, rfl⟩
  | closeDone hd hc => exact ⟨rfl, rfl⟩
  | dispatch m rest hd hp hin => rw [h] at hd; cases hd
  | table us => exact ⟨h, rfl⟩
  | cancel e hc => exact ⟨h, rfl⟩
  | heap hp => exact ⟨h, rfl⟩

theorem exec_after_done (s : State) (ops : List Op) (h : s.done = true) :
    (exec s ops).done = true ∧ (exec s ops).log = s.log := by
  induction ops generalizing s with
  | nil => exact ⟨h, rfl⟩
  | cons op ops ih =>
    obtain ⟨h1, h2⟩ := step_after_done s op h
    obtain ⟨h3, h4⟩ := ih (step s op) h1
    exact ⟨h3, h4.trans h2⟩

/-- C10 as stated fails: after 100 accepted messages on a new broker whose
`Run` was never started, with a live context, no case of the `select` of
`SendMessage` is enabled and the call has no outcome. -/
theorem SendMessage_blocks_counterexample :
    (exec (State.init none (openHeap 1)) (List.replicate 100 (Op.submit msgAll 0))).input.length
      = 100 ∧
    (exec (State.init none (openHeap 1)) (List.replicate 100 (Op.submit msgAll 0))).ctx
      = none ∧
    (exec (State.init none (openHeap 1)) (List.replicate 100 (Op.submit msgAll 0))).done
      = false ∧
    SendMessage_ready
      (exec (State.init none (openHeap 1)) (List.replicate 100 (Op.submit msgAll 0))) = [] ∧
    (SendMessage
      (exec (State.init none (openHeap 1)) (List.replicate 100 (Op.submit msgAll 0)))
      msgBob).length = 0 := by
  set_option maxRecDepth 1000000 in decide

/-- C5, amended: in every state the broker can reach in which `done` is
closed, the context is cancelled, and `SendMessage` of any message has exactly
one outcome: it returns the context's error (not nil) and leaves the state,
the queue included, as it was; `Run` makes no further step, and whatever
happens afterwards no channel receives anything more. -/
theorem post_termination_submit (ctx : Option CtxErr) (heap : Heap) (ops : List Op)
    (m : Message) (hd : (exec (State.init ctx heap) ops).done = true) :
    ∃ e, (exec (State.init ctx heap) ops).ctx = some e ∧
      SendMessage (exec (State.init ctx heap) ops) m
        = [(some e, exec (State.init ctx heap) ops)] ∧
      Run_iter (exec (State.init ctx heap) ops) = [] ∧
      ∀ ops2 s2, (some e, s2) ∈ SendMessage (exec (State.init ctx heap) ops) m →
        (exec s2 ops2).log = (exec (State.init ctx heap) ops).log := by
  have hc := exec_done_cancelled (State.init ctx heap) ops (by simp [State.init, NewBroker]) hd
  obtain ⟨e, he⟩ := Option.isSome_iff_exists.1 hc
  refine ⟨e, he, SendMessage_guard _ m e he, by simp [Run_iter, hd], ?_⟩
  intro ops2 s2 hs2
  rw [SendMessage_guard _ m e he] at hs2
  simp only [List.mem_singleton, Prod.mk.injEq, true_and] at hs2
  subst hs2
  exact (exec_after_done _ ops2 hd).2

theorem post_termination_submit_witness :
    ∃ e, (exec (State.init none (openHeap 1)) [Op.cancel CtxErr.Canceled, Op.run 0]).ctx
        = some e ∧
      SendMessage (exec (State.init none (openHeap 1)) [Op.cancel CtxErr.Canceled, Op.run 0])
        msgBob
        = [(some e, exec (State.init none (openHeap 1)) [Op.cancel CtxErr.Canceled, Op.run 0])] := by
  obtain ⟨e, h1, h2, -⟩ := post_termination_submit none (openHeap 1)
    [Op.cancel CtxErr.Canceled, Op.run 0] msgBob (by decide)
  exact ⟨e, h1, h2⟩

/-- C5 as stated fails: on a broker with `"bob"` registered, after the context
is cancelled and `Run` has closed `done`, `SendMessage` returns the
cancellation error, not nil. -/
theorem post_termination_submit_counterexample :
    (exec (State.init none (openHeap 1))
      [Op.register "bob" (some 0), Op.cancel CtxErr.Canceled, Op.run 0]).done = true ∧
    (SendMessage (exec (State.init none (openHeap 1))
      [Op.register "bob" (some 0), Op.cancel CtxErr.Canceled, Op.run 0]) msgBob).map Prod.fst
      = [some CtxErr.Canceled] := by
  decide

/-! ## Registry -/

theorem lookup_delete_self (users : Users) (id : String) :
    (users.delete id).lookup id = none := by
  induction users with
  | nil => rfl
  | cons e rest ih =>
    obtain ⟨k, r⟩ := e
    by_cases hk : k = id
    · subst hk
      simpa [Users.delete, List.filter_cons] using ih
    · have hk2 : ¬ id = k := fun e => hk e.symm
      have : (id == k) = false := by simpa using hk2
      simpa [Users.delete, List.filter_cons, hk, List.lookup_cons, this] using ih

theorem lookup_delete_other (users : Users) (id j : String) (hj : j ≠ id) :
    (users.delete id).lookup j = users.lookup j := by
  induction users with
  | nil => rfl
  | cons e rest ih =>
    obtain ⟨k, r⟩ := e
    by_cases hk : k = id
    · subst hk
      have : (j == k) = false := by simpa using hj
      simpa [Users.delete, List.filter_cons, List.lookup_cons, this] using ih
    · by_cases hjk : j = k
      · subst hjk
        simp [Users.delete, List.filter_cons, hk, List.lookup_cons]
      · have : (j == k) = false := by simpa using hjk
        simpa [Users.delete, List.filter_cons, hk, List.lookup_cons, this] using ih

theorem delete_of_lookup_none (users : Users) (id : String)
    (h : users.lookup id = none) : users.delete id = users := by
  induction users with
  | nil => rfl
  | cons e rest ih =>
    obtain ⟨k, r⟩ := e
    by_cases hk : id = k
    · subst hk
      simp [List.lookup_cons] at h
    · have hb : (id == k) = false := by simpa using hk
      have hk2 : ¬ k = id := fun e => hk e.symm
      simp only [List.lookup_cons, hb] at h
      have := ih h
      simp only [Users.delete] at this ⊢
      simp [List.filter_cons, hk2, this]

theorem delete_delete (users : Users) (id : String) :
    (users.delete id).delete id = users.delete id := by
  simp [Users.delete, List.filter_filter]

/-- C7: `UnregisterUser(id)` is total; afterwards `id` has no entry; it changes
nothing when `id` had none; a second call changes nothing more; every other
identifier keeps its entry (the same lookup result, the same entries in the
same order), and nothing but the table is touched. -/
theorem unregister_idempotent (s : State) (id : String) :
    (UnregisterUser s id).users.lookup id = none ∧
    (s.users.lookup id = none → UnregisterUser s id = s) ∧
    UnregisterUser (UnregisterUser s id) id = UnregisterUser s id ∧
    (∀ j, j ≠ id → (UnregisterUser s id).users.lookup j = s.users.lookup j) ∧
    (UnregisterUser s id).users = s.users.filter (fun e => decide (e.1 ≠ id)) ∧
    UnregisterUser s id = { s with users := (UnregisterUser s id).users } := by
  refine ⟨lookup_delete_self s.users id, ?_, ?_, ?_, ?_, rfl⟩
  · intro h
    simp [UnregisterUser, delete_of_lookup_none s.users id h]
  · simp [UnregisterUser, delete_delete]
  · intro j hj
    exact lookup_delete_other s.users id j hj
  · simp only [UnregisterUser, Users.delete]
    apply List.filter_congr
    intro e _
    by_cases h : e.1 = id <;> simp [h]

theorem lookup_insert_self (users : Users) (id : String) (recv : ChanRef) :
    (users.insert id recv).lookup id = some recv := by
  induction users with
  | nil => simp [Users.insert, List.lookup_cons]
  | cons e rest ih =>
    obtain ⟨k, r⟩ := e
    by_cases hk : k = id
    · subst hk
      simp [Users.insert, List.lookup_cons]
    · have hb : (id == k) = false := by simpa using fun e : id = k => hk e.symm
      simpa [Users.insert, hk, List.lookup_cons, hb] using ih

theorem lookup_insert_other (users : Users) (id j : String) (recv : ChanRef) (hj : j ≠ id) :
    (users.insert id recv).lookup j = users.lookup j := by
  induction users with
  | nil =>
    have hb : (j == id) = false := by simpa using hj
    simp [Users.insert, List.lookup_cons, hb]
  | cons e rest ih =>
    obtain ⟨k, r⟩ := e
    by_cases hk : k = id
    · subst hk
      have hb : (j == k) = false := by simpa using hj
      simp [Users.insert, List.lookup_cons, hb]
    · by_cases hjk : j = k
      · subst hjk
        simp [Users.insert, hk, List.lookup_cons]
      · have hb : (j == k) = false := by simpa using hjk
        simpa [Users.insert, hk, List.lookup_cons, hb] using ih

theorem mem_insert_other (users : Users) (id : String) (recv : ChanRef)
    (e : String × ChanRef) (he : e.1 ≠ id) :
    e ∈ users.insert id recv ↔ e ∈ users := by
  induction users with
  | nil =>
    simp only [Users.insert, List.mem_singleton, List.not_mem_nil, iff_false]
    rintro rfl
    exact he rfl
  | cons x rest ih =>
    obtain ⟨k, r⟩ := x
    by_cases hk : k = id
    · subst hk
      simp only [Users.insert, beq_self_eq_true, if_true, List.mem_cons]
      constructor
      · rintro (rfl | h)
        · exact absurd rfl he
        · exact Or.inr h
      · rintro (rfl | h)
        · exact absurd rfl he
        · exact Or.inr h
    · simp only [Users.insert, beq_iff_eq, hk, if_false, List.mem_cons, ih]

theorem keys_insert (users : Users) (id : String) (recv : ChanRef) :
    (users.insert id recv).map Prod.fst =
      if id ∈ users.map Prod.fst then users.map Prod.fst else users.map Prod.fst ++ [id] := by
  induction users with
  | nil => simp [Users.insert]
  | cons x rest ih =>
    obtain ⟨k, r⟩ := x
    by_cases hk : k = id
    · subst hk
      simp [Users.insert]
    · have hk2 : ¬ id = k := fun e => hk e.symm
      simp only [Users.insert, beq_iff_eq, hk, if_false, List.map_cons, ih, List.mem_cons,
        hk2, false_or]
      split <;> simp

theorem keysNodup_insert (users : Users) (id : String) (recv : ChanRef)
    (h : keysNodup users) : keysNodup (users.insert id recv) := by
  unfold keysNodup at h ⊢
  rw [keys_insert]
  split
  · exact h
  · rename_i hn
    exact List.Nodup.append h (List.nodup_singleton id) (by simpa using hn)

theorem filter_key_insert (users : Users) (id : String) (recv : ChanRef)
    (h : keysNodup users) :
    (users.insert id recv).filter (fun e => e.1 == id) = [(id, recv)] := by
  induction users with
  | nil => simp [Users.insert]
  | cons x rest ih =>
    obtain ⟨k, r⟩ := x
    have h2 : k ∉ rest.map Prod.fst ∧ keysNodup rest := by
      simpa [keysNodup] using h
    by_cases hk : k = id
    · subst hk
      simp only [Users.insert, beq_self_eq_true, if_true, List.filter_cons]
      have : rest.filter (fun e => e.1 == k) = [] := by
        rw [List.filter_eq_nil_iff]
        intro e he hek
        exact h2.1 (List.mem_map.2 ⟨e, he, by simpa using hek⟩)
      simp [this]
    · simp only [Users.insert, beq_iff_eq, hk, if_false, List.filter_cons, ih h2.2]

theorem mem_of_lookup {users : Users} {id : String} {r : ChanRef}
    (h : users.lookup id = some r) : (id, r) ∈ users := by
  induction users with
  | nil => simp at h
  | cons x rest ih =>
    obtain ⟨k, q⟩ := x
    by_cases hk : id = k
    · subst hk
      simp only [List.lookup_cons, beq_self_eq_true, Option.some.injEq] at h
      subst h
      exact List.mem_cons_self _ _
    · have hb : (id == k) = false := by simpa using hk
      simp only [List.lookup_cons, hb] at h
      exact List.mem_cons_of_mem _ (ih h)

/-- A dispatch touches no channel outside the table. -/
theorem dispatch_heap_of_not_mem (users : Users) (h : Heap) (m : Message) (c : Nat)
    (hc : c ∉ users.chans) : (dispatch users h m).heap c = h c := by
  cases hb : m.Broadcast with
  | true =>
    rw [dispatch_broadcast _ _ _ hb]
    exact broadcastLoop_heap_of_not_mem m users h c hc
  | false =>
    cases hl : users.lookup m.Recipient with
    | none => rw [dispatch_absent _ _ _ hb hl]
    | some ref =>
      rw [dispatch_unicast _ _ _ _ hb hl]
      cases hts : trySend h ref m with
      | panic => rfl
      | skipped => rfl
      | sent d h1 =>
        obtain ⟨rfl, -, -, rfl⟩ := trySend_sent hts
        have : c ≠ d := fun e => hc (e ▸ mem_chans_of_mem (mem_of_lookup hl))
        simp [Heap.set, this]

/-- On a table without closed channels the broadcast loop reaches every
registered channel that has room. -/
theorem broadcastLoop_mem_delivered (msg : Message) (users : Users) (h : Heap) (c : Nat)
    (hn : noClosed users h) (hc : c ∈ users.chans) (hr : (h c).hasRoom = true) :
    c ∈ (broadcastLoop msg users h).delivered := by
  induction users generalizing h with
  | nil => simp [Users.chans] at hc
  | cons e rest ih =>
    obtain ⟨id, ch⟩ := e
    cases ch with
    | none =>
      have hts : trySend h none msg = .skipped := rfl
      simp only [broadcastLoop, hts]
      exact ih h (by simpa [noClosed, Users.chans] using hn)
        (by simpa [Users.chans] using hc) hr
    | some d =>
      have hn1 : (h d).closed = false ∧ noClosed rest h := by
        simpa [noClosed, Users.chans] using hn
      have hc1 : c = d ∨ c ∈ Users.chans rest := by
        simpa [Users.chans] using hc
      by_cases hrd : (h d).hasRoom = true
      · have hts : trySend h (some d) msg = .sent d (h.set d ((h d).push msg)) := by
          simp [trySend, hn1.1, hrd]
        simp only [broadcastLoop, hts, List.mem_cons]
        by_cases hcd : c = d
        · exact Or.inl hcd
        · right
          have hc2 : c ∈ Users.chans rest := hc1.resolve_left hcd
          refine ih _ (fun x hx => by rw [closed_set_push]; exact hn1.2 x hx) hc2 ?_
          rw [set_push_of_ne h d msg hcd]
          exact hr
      · have hts : trySend h (some d) msg = .skipped := by
          simp [trySend, hn1.1, hrd]
        simp only [broadcastLoop, hts]
        have hcd : c ≠ d := fun e => hrd (e ▸ hr)
        exact ih h hn1.2 (hc1.resolve_left hcd) hr

theorem chans_insert_insert (users : Users) (id : String) (c1 c2 : ChanRef)
    (hk : keysNodup users) (c : Nat)
    (hc : c ∈ Users.chans ((users.insert id c1).insert id c2)) :
    c2 = some c ∨ ∃ j r, j ≠ id ∧ (j, r) ∈ users ∧ r = some c := by
  simp only [Users.chans, List.mem_filterMap] at hc
  obtain ⟨⟨j, r⟩, he, hr⟩ := hc
  simp only at hr
  by_cases hj : j = id
  · left
    have hf := filter_key_insert (users.insert id c1) id c2 (keysNodup_insert users id c1 hk)
    have : (j, r) ∈ ((users.insert id c1).insert id c2).filter (fun e => e.1 == id) :=
      List.mem_filter.2 ⟨he, by simpa using hj⟩
    rw [hf, List.mem_singleton, Prod.mk.injEq] at this
    rw [← this.2]; exact hr
  · right
    have h1 := (mem_insert_other (users.insert id c1) id c2 (j, r) hj).1 he
    exact ⟨j, r, hj, (mem_insert_other users id c1 (j, r) hj).1 h1, hr⟩

/-- C6, amended: after `RegisterUser(id, C1)` and then `RegisterUser(id, C2)`
on a table with one entry per key, the table maps `id` to `C2`, has exactly one
entry for `id`, keeps the entry of every other identifier, and nothing else
of the state has changed.  A dispatch step on that table touches only
channels of that table: a channel that is neither `C2` nor registered under
another identifier (so `C1`, unless `C1` is `C2` or another identifier holds it
too) is left unchanged; a unicast message addressed to `id` touches no channel
but `C2`, and is appended to `C2` when `C2` can accept; a broadcast message,
when no registered channel is closed, is appended to `C2` at least once when
`C2` has room. -/
theorem registration_replace (s : State) (id : String) (c1 c2 : ChanRef)
    (hk : keysNodup s.users) :
    (RegisterUser (RegisterUser s id c1) id c2).users.lookup id = some c2 ∧
    (RegisterUser (RegisterUser s id c1) id c2).users.filter (fun e => e.1 == id)
      = [(id, c2)] ∧
    (∀ j, j ≠ id →
      (RegisterUser (RegisterUser s id c1) id c2).users.lookup j = s.users.lookup j) ∧
    (∀ e : String × ChanRef, e.1 ≠ id →
      (e ∈ (RegisterUser (RegisterUser s id c1) id c2).users ↔ e ∈ s.users)) ∧
    RegisterUser (RegisterUser s id c1) id c2
      = { s with users := (RegisterUser (RegisterUser s id c1) id c2).users } ∧
    (∀ s3 m rest, s3.users = (RegisterUser (RegisterUser s id c1) id c2).users →
      s3.input = m :: rest →
      ∃ s4, Run_input s3 = some s4 ∧
        (∀ c, c2 ≠ some c → (∀ j, j ≠ id → (j, some c) ∉ s.users) →
          s4.heap c = s3.heap c) ∧
        (m.Broadcast = false → m.Recipient = id →
          (∀ c, c2 ≠ some c → s4.heap c = s3.heap c) ∧
          (canAccept s3.heap c2 = true →
            ∃ c, c2 = some c ∧ s4.heap c = (s3.heap c).push m)) ∧
        (m.Broadcast = true → noClosed s3.users s3.heap →
          ∀ c, c2 = some c → (s3.heap c).hasRoom = true →
            ∃ n, 1 ≤ n ∧ (s4.heap c).buf = (s3.heap c).buf ++ List.replicate n m)) := by
  have hl : ((s.users.insert id c1).insert id c2).lookup id = some c2 :=
    lookup_insert_self _ id c2
  refine ⟨hl, filter_key_insert _ id c2 (keysNodup_insert s.users id c1 hk), ?_, ?_, rfl, ?_⟩
  · intro j hj
    exact (lookup_insert_other _ id j c2 hj).trans (lookup_insert_other _ id j c1 hj)
  · intro e he
    exact (mem_insert_other _ id c2 e he).trans (mem_insert_other _ id c1 e he)
  · intro s3 m rest hu hin
    have hu2 : s3.users = (s.users.insert id c1).insert id c2 := hu
    refine ⟨_, Run_input_cons s3 m rest hin, ?_, ?_, ?_⟩
    · intro c hne hfree
      refine dispatch_heap_of_not_mem s3.users s3.heap m c ?_
      rw [hu2]
      intro hc
      rcases chans_insert_insert s.users id c1 c2 hk c hc with h | ⟨j, r, hj, hm, hr⟩
      · exact hne h
      · exact hfree j hj (hr ▸ hm)
    · intro hb hrec
      have hl3 : s3.users.lookup m.Recipient = some c2 := by rw [hrec, hu2]; exact hl
      simp only [dispatch_unicast _ _ _ _ hb hl3]
      constructor
      · intro c hne
        cases hts : trySend s3.heap c2 m with
        | panic => rfl
        | skipped => rfl
        | sent d h1 =>
          obtain ⟨rfl, -, -, rfl⟩ := trySend_sent hts
          have : c ≠ d := fun e => hne (by rw [e])
          simp [Heap.set, this]
      · intro hca
        obtain ⟨c, rfl, e⟩ := trySend_of_canAccept m hca
        exact ⟨c, rfl, by simp [e, Heap.set]⟩
    · intro hb hn c hc hr
      subst hc
      simp only [dispatch_broadcast _ _ _ hb]
      have hmem : c ∈ s3.users.chans := mem_chans_of_mem (mem_of_lookup (hu2 ▸ hl))
      have hd := broadcastLoop_mem_delivered m s3.users s3.heap c hn hmem hr
      refine ⟨_, List.count_pos_iff.2 hd, ?_⟩
      rw [broadcastLoop_heap]

theorem registration_replace_witness :
    (RegisterUser (RegisterUser (mkState [] [("eve", some 2)] (openHeap 1)) "bob" (some 0))
      "bob" (some 1)).users.lookup "bob" = some (some 1) :=
  (registration_replace (mkState [] [("eve", some 2)] (openHeap 1)) "bob" (some 0) (some 1)
    (by decide)).1

/-- C6 as stated fails.  Registering `"bob"` twice with the same channel 0:
the message for `"bob"` is appended to `C1`, which is channel 0.  Registering
`"bob"` with channel 0 and then channel 1 while `"eve"` holds channel 0 too: a
broadcast is appended to `C1`. -/
theorem registration_replace_counterexample :
    (Run_input (RegisterUser (RegisterUser (mkState [msgBob] [] (openHeap 1))
        "bob" (some 0)) "bob" (some 0))).map (fun s4 => (s4.heap 0).buf)
      = some [msgBob] ∧
    (Run_input (RegisterUser (RegisterUser (mkState [msgAll] [("eve", some 0)] (openHeap 1))
        "bob" (some 0)) "bob" (some 1))).map (fun s4 => (s4.heap 0).buf)
      = some [msgAll] := by
  decide

/-! ## Order of delivery -/

theorem deliveries_of_map (l : List Nat) (m : Message) (c : Nat) :
    ((l.map (fun d => (d, m))).filter (fun e => e.1 == c)).map Prod.snd
      = List.replicate (l.count c) m := by
  induction l with
  | nil => rfl
  | cons d rest ih =>
    by_cases hd : d = c
    · subst hd
      simp [List.filter_cons, List.replicate_succ, ih]
    · simp [List.filter_cons, hd, List.count_cons, ih]

theorem dispatch_delivered_nodup (users : Users) (h : Heap) (m : Message)
    (ha : aliasFree users) : (dispatch users h m).delivered.Nodup := by
  cases hb : m.Broadcast with
  | true =>
    rw [dispatch_broadcast _ _ _ hb]
    exact (broadcastLoop_delivered_sublist m users h).nodup ha
  | false =>
    cases hl : users.lookup m.Recipient with
    | none => rw [dispatch_absent _ _ _ hb hl]; exact List.nodup_nil
    | some ref =>
      rw [dispatch_unicast _ _ _ _ hb hl]
      cases trySend h ref m with
      | panic => exact List.nodup_nil
      | skipped => exact List.nodup_nil
      | sent d h1 => exact List.nodup_singleton d

theorem alias_unique (users : Users) (ha : aliasFree users) (j id : String) (c : Nat)
    (hj : (j, some c) ∈ users) (hi : (id, some c) ∈ users) : j = id := by
  induction users with
  | nil => simp at hj
  | cons x rest ih =>
    obtain ⟨k, r⟩ := x
    cases r with
    | none =>
      have ha1 : aliasFree rest := by simpa [aliasFree, Users.chans] using ha
      simp only [List.mem_cons, Prod.mk.injEq, reduceCtorEq, and_false, false_or] at hj hi
      exact ih ha1 hj hi
    | some d =>
      have ha1 : d ∉ Users.chans rest ∧ aliasFree rest := by
        simpa [aliasFree, Users.chans] using ha
      simp only [List.mem_cons, Prod.mk.injEq, Option.some.injEq] at hj hi
      rcases hj with ⟨rfl, rfl⟩ | hj
      · rcases hi with ⟨rfl, -⟩ | hi
        · rfl
        · exact absurd (mem_chans_of_mem hi) ha1.1
      · rcases hi with ⟨rfl, rfl⟩ | hi
        · exact absurd (mem_chans_of_mem hj) ha1.1
        · exact ih ha1.2 hj hi

/-- The deliveries of one dispatch to a channel that is registered under `id`
and ready, on a table of pairwise distinct open channels: the message, once,
when it is addressed to `id`, and nothing otherwise. -/
theorem dispatch_count_ready (users : Users) (h : Heap) (m : Message) (id : String) (c : Nat)
    (ha : aliasFree users) (hn : noClosed users h)
    (hl : users.lookup id = some (some c)) (hr : (h c).hasRoom = true) :
    (dispatch users h m).delivered.count c = if addressedTo id m then 1 else 0 := by
  have hcm : c ∈ users.chans := mem_chans_of_mem (mem_of_lookup hl)
  cases hb : m.Broadcast with
  | true =>
    have hnd := dispatch_delivered_nodup users h m ha
    rw [dispatch_broadcast _ _ _ hb] at hnd ⊢
    simp only [addressedTo, hb, Bool.true_or, if_true]
    exact List.count_eq_one_of_mem hnd (broadcastLoop_mem_delivered m users h c hn hcm hr)
  | false =>
    by_cases hrec : m.Recipient = id
    · have hl2 : users.lookup m.Recipient = some (some c) := by rw [hrec]; exact hl
      have hca : canAccept h (some c) = true := by simp [canAccept, hn c hcm, hr]
      obtain ⟨d, hd, e⟩ := trySend_of_canAccept m hca
      cases hd
      simp [dispatch_unicast _ _ _ _ hb hl2, e, addressedTo, hb, hrec]
    · have hadd : addressedTo id m = false := by simp [addressedTo, hb, hrec]
      simp only [hadd, Bool.false_eq_true, if_false]
      cases hl2 : users.lookup m.Recipient with
      | none => rw [dispatch_absent _ _ _ hb hl2]; rfl
      | some ref =>
        rw [dispatch_unicast _ _ _ _ hb hl2]
        cases hts : trySend h ref m with
        | panic => rfl
        | skipped => rfl
        | sent d h1 =>
          obtain ⟨rfl, -, -, -⟩ := trySend_sent hts
          have hdc : d ≠ c := by
            rintro rfl
            exact hrec (alias_unique users ha _ _ d (mem_of_lookup hl2) (mem_of_lookup hl))
          simp [List.count_cons, hdc]

theorem effect_fifo {s s1 : State} (e : Effect s s1) (ha : aliasFree s.users)
    (D0 : List Message) (h0 : s.enq = D0 ++ s.input) :
    ∃ d, s1.enq = (D0 ++ d) ++ s1.input ∧
      (∀ c, ∃ l, s1.deliveredTo c = s.deliveredTo c ++ l ∧ l.Sublist d) ∧
      (∀ id c, alwaysReady id c s →
        s1.deliveredTo c = s.deliveredTo c ++ d.filter (addressedTo id)) := by
  have triv : ∀ t : State, t.enq = D0 ++ t.input → t.log = s.log →
      ∃ d, t.enq = (D0 ++ d) ++ t.input ∧
        (∀ c, ∃ l, t.deliveredTo c = s.deliveredTo c ++ l ∧ l.Sublist d) ∧
        (∀ id c, alwaysReady id c s →
          t.deliveredTo c = s.deliveredTo c ++ d.filter (addressedTo id)) := by
    intro t ht hlog
    refine ⟨[], by simpa using ht, fun c => ⟨[], ?_, List.Sublist.refl _⟩, fun id c _ => ?_⟩
    · simp [State.deliveredTo, hlog]
    · simp [State.deliveredTo, hlog]
  cases e with
  | skip => exact triv _ h0 rfl
  | enqueue m => exact triv _ (by simp [h0]) rfl
  | closeDone hd hc => exact triv _ h0 rfl
  | table us => exact triv _ h0 rfl
  | cancel e hc => exact triv _ h0 rfl
  | heap hp => exact triv _ h0 rfl
  | dispatch m rest hd hp hin =>
    have hnd := dispatch_delivered_nodup s.users s.heap m ha
    have hdel : ∀ c, State.deliveredTo { s with
        input := rest, heap := (dispatch s.users s.heap m).heap,
        panicked := (dispatch s.users s.heap m).panicked,
        log := s.log ++ (dispatch s.users s.heap m).delivered.map (fun c => (c, m)) } c
        = s.deliveredTo c
          ++ List.replicate ((dispatch s.users s.heap m).delivered.count c) m := by
      intro c
      simp only [State.deliveredTo, List.filter_append, List.map_append, deliveries_of_map]
    refine ⟨[m], by simp [h0, hin], fun c => ⟨_, hdel c, ?_⟩, fun id c hr => ?_⟩
    · have hle := List.nodup_iff_count_le_one.1 hnd c
      have : List.Sublist (List.replicate ((dispatch s.users s.heap m).delivered.count c) m)
          (List.replicate 1 m) := (List.replicate_sublist_replicate m).2 hle
      simpa using this
    · rw [hdel c, dispatch_count_ready s.users s.heap m id c ha hr.1 hr.2.1 hr.2.2]
      cases hadd : addressedTo id m <;> simp [List.filter_cons, hadd]

theorem exec_fifo (s0 : State) (ops : List Op) (D0 : List Message)
    (h0 : s0.enq = D0 ++ s0.input) (ha : alongRun (fun s => aliasFree s.users) s0 ops) :
    ∃ D, (exec s0 ops).enq = (D0 ++ D) ++ (exec s0 ops).input ∧
      (∀ c, ∃ L, (exec s0 ops).deliveredTo c = s0.deliveredTo c ++ L ∧ L.Sublist D) ∧
      (∀ id c, alongRun (alwaysReady id c) s0 ops →
        (exec s0 ops).deliveredTo c = s0.deliveredTo c ++ D.filter (addressedTo id)) := by
  induction ops generalizing s0 D0 with
  | nil =>
    refine ⟨[], by simpa [exec] using h0, fun c => ⟨[], by simp [exec], List.Sublist.refl _⟩,
      fun id c _ => by simp [exec]⟩
  | cons op ops ih =>
    obtain ⟨ha1, ha2⟩ := ha
    obtain ⟨d, hd1, hd2, hd3⟩ := effect_fifo (step_effect s0 op) ha1 D0 h0
    obtain ⟨D, hD1, hD2, hD3⟩ := ih (step s0 op) (D0 ++ d) hd1 ha2
    refine ⟨d ++ D, ?_, ?_, ?_⟩
    · simpa [exec, List.append_assoc] using hD1
    · intro c
      obtain ⟨l, hl1, hl2⟩ := hd2 c
      obtain ⟨L, hL1, hL2⟩ := hD2 c
      refine ⟨l ++ L, ?_, List.Sublist.append hl2 hL2⟩
      show (exec (step s0 op) ops).deliveredTo c = _
      rw [hL1, hl1, List.append_assoc]
    · intro id c hr
      obtain ⟨hr1, hr2⟩ := hr
      show (exec (step s0 op) ops).deliveredTo c = _
      rw [hD3 id c hr2, hd3 id c hr1, List.filter_append, List.append_assoc]

theorem dispatched_eq (s : State) (D : List Message) (h : s.enq = D ++ s.input) :
    s.dispatched = D := by
  simp [State.dispatched, h]

/-- C8, amended: take any state whose history is consistent and any
interleaving of actions during which no channel is registered under two
identifiers.  The messages dispatched during the run, `D`, extend the
dispatched prefix of the enqueue order; the messages appended during the run
to any one channel form a subsequence of `D` (gaps, no reorder, no duplicate);
and a channel that stays registered under `id` with room, while no registered
channel is closed, receives exactly the messages of `D` addressed to `id`
(broadcast, or unicast with recipient `id`), in that order. -/
theorem fifo_dispatch (s0 : State) (ops : List Op)
    (h0 : s0.dispatched ++ s0.input = s0.enq)
    (ha : alongRun (fun s => aliasFree s.users) s0 ops) :
    ∃ D, (exec s0 ops).dispatched = s0.dispatched ++ D ∧
      (exec s0 ops).dispatched ++ (exec s0 ops).input = (exec s0 ops).enq ∧
      (∀ c, ∃ L, (exec s0 ops).deliveredTo c = s0.deliveredTo c ++ L ∧ L.Sublist D) ∧
      (s0.log = [] → s0.dispatched = [] →
        ∀ c, ((exec s0 ops).deliveredTo c).Sublist (exec s0 ops).enq) ∧
      (∀ id c, alongRun (alwaysReady id c) s0 ops →
        (exec s0 ops).deliveredTo c = s0.deliveredTo c ++ D.filter (addressedTo id)) := by
  obtain ⟨D, h1, h2, h3⟩ := exec_fifo s0 ops s0.dispatched h0.symm ha
  have hd := dispatched_eq (exec s0 ops) (s0.dispatched ++ D) h1
  refine ⟨D, hd, by rw [hd]; exact h1.symm, h2, ?_, h3⟩
  intro hlog hdis c
  obtain ⟨L, hL1, hL2⟩ := h2 c
  have : s0.deliveredTo c = [] := by simp [State.deliveredTo, hlog]
  rw [hL1, this, List.nil_append, h1, hdis, List.nil_append]
  exact hL2.trans (List.sublist_append_left D _)

theorem fifo_dispatch_witness :
    ∃ D, (exec (State.init none (openHeap 1))
        [Op.register "bob" (some 0), Op.submit msgBob 0, Op.run 0]).dispatched
      = (State.init none (openHeap 1)).dispatched ++ D := by
  obtain ⟨D, h, -⟩ := fifo_dispatch (State.init none (openHeap 1))
    [Op.register "bob" (some 0), Op.submit msgBob 0, Op.run 0] (by decide)
    ⟨by decide, by decide, by decide, trivial⟩
  exact ⟨D, h⟩

/-- C8 as stated fails.  With channel 0 registered under `"a"` and `"b"`, one
enqueued broadcast is appended to channel 0 twice, so what the channel
receives is not a subsequence of the enqueue order.  With `"bob"` holding the
closed channel 0 and `"eve"` the open channel 1, which has room throughout,
the broadcast is dispatched and `"eve"` does not receive it. -/
theorem fifo_dispatch_counterexample :
    (exec (State.init none (openHeap 2))
      [Op.register "a" (some 0), Op.register "b" (some 0), Op.submit msgAll 0, Op.run 0]).enq
      = [msgAll] ∧
    (exec (State.init none (openHeap 2))
      [Op.register "a" (some 0), Op.register "b" (some 0), Op.submit msgAll 0,
        Op.run 0]).deliveredTo 0 = [msgAll, msgAll] ∧
    ¬ List.Sublist
      ((exec (State.init none (openHeap 2))
        [Op.register "a" (some 0), Op.register "b" (some 0), Op.submit msgAll 0,
          Op.run 0]).deliveredTo 0)
      (exec (State.init none (openHeap 2))
        [Op.register "a" (some 0), Op.register "b" (some 0), Op.submit msgAll 0, Op.run 0]).enq ∧
    (exec (State.init none closedHeap)
      [Op.register "bob" (some 0), Op.register "eve" (some 1), Op.submit msgAll 0,
        Op.run 0]).dispatched = [msgAll] ∧
    (exec (State.init none closedHeap)
      [Op.register "bob" (some 0), Op.register "eve" (some 1), Op.submit msgAll 0,
        Op.run 0]).deliveredTo 1 = [] := by
  decide

/-! ## Closed channels -/

theorem dispatch_closed_eq (users : Users) (h : Heap) (m : Message) (c : Nat) :
    ((dispatch users h m).heap c).closed = (h c).closed := by
  cases hb : m.Broadcast with
  | true => rw [dispatch_broadcast _ _ _ hb, broadcastLoop_heap]
  | false =>
    cases hl : users.lookup m.Recipient with
    | none => rw [dispatch_absent _ _ _ hb hl]
    | some ref =>
      rw [dispatch_unicast _ _ _ _ hb hl]
      cases hts : trySend h ref m with
      | panic => rfl
      | skipped => rfl
      | sent d h1 =>
        obtain ⟨-, -, -, rfl⟩ := trySend_sent hts
        exact closed_set_push h d m c

/-- The broadcast loop stops at the first closed channel: what it leaves
behind is what the loop over the entries before that channel leaves. -/
theorem broadcastLoop_append_closed (msg : Message) (pre post : Users) (id : String)
    (c : Nat) (h : Heap) (hc : (h c).closed = true) (hn : noClosed pre h) :
    (broadcastLoop msg (pre ++ (id, some c) :: post) h).heap = (broadcastLoop msg pre h).heap ∧
    (broadcastLoop msg (pre ++ (id, some c) :: post) h).delivered
      = (broadcastLoop msg pre h).delivered := by
  induction pre generalizing h with
  | nil => simp [broadcastLoop, trySend, hc]
  | cons e rest ih =>
    obtain ⟨k, ch⟩ := e
    cases ch with
    | none =>
      have hts : trySend h none msg = .skipped := rfl
      simp only [List.cons_append, broadcastLoop, hts]
      exact ih h hc (by simpa [noClosed, Users.chans] using hn)
    | some d =>
      have hn1 : (h d).closed = false ∧ noClosed rest h := by
        simpa [noClosed, Users.chans] using hn
      by_cases hrd : (h d).hasRoom = true
      · have hts : trySend h (some d) msg = .sent d (h.set d ((h d).push msg)) := by
          simp [trySend, hn1.1, hrd]
        simp only [List.cons_append, broadcastLoop, hts]
        have := ih (h.set d ((h d).push msg)) (by rw [closed_set_push]; exact hc)
          (fun x hx => by rw [closed_set_push]; exact hn1.2 x hx)
        exact ⟨this.1, congrArg (List.cons d) this.2⟩
      · have hts : trySend h (some d) msg = .skipped := by
          simp [trySend, hn1.1, hrd]
        simp only [List.cons_append, broadcastLoop, hts]
        exact ih h hc hn1.2

theorem trySend_panic_iff (h : Heap) (ch : ChanRef) (msg : Message) :
    trySend h ch msg = .panic ↔ ∃ c, ch = some c ∧ (h c).closed = true := by
  constructor
  · exact trySend_panic
  · rintro ⟨c, rfl, hc⟩
    simp [trySend, hc]

theorem unicastSend_panicked_iff (h : Heap) (recv : ChanRef) (msg : Message) :
    (unicastSend h recv msg).panicked = true ↔ ∃ c, recv = some c ∧ (h c).closed = true := by
  rw [← trySend_panic_iff h recv msg]
  unfold unicastSend
  cases trySend h recv msg <;> simp

theorem unicastSend_of_panicked (h : Heap) (recv : ChanRef) (msg : Message)
    (hp : (unicastSend h recv msg).panicked = true) :
    (unicastSend h recv msg).heap = h ∧ (unicastSend h recv msg).delivered = [] := by
  unfold unicastSend at hp ⊢
  cases hts : trySend h recv msg with
  | panic => exact ⟨rfl, rfl⟩
  | skipped => exact ⟨rfl, rfl⟩
  | sent d h1 => simp [hts] at hp

theorem unicastSend_closed_eq (h : Heap) (recv : ChanRef) (msg : Message) (c : Nat) :
    ((unicastSend h recv msg).heap c).closed = (h c).closed := by
  unfold unicastSend
  cases hts : trySend h recv msg with
  | panic => rfl
  | skipped => rfl
  | sent d h1 =>
    obtain ⟨-, -, -, rfl⟩ := trySend_sent hts
    exact closed_set_push h d msg c

/-- A table with a closed channel splits at the first entry whose channel is
closed. -/
theorem first_closed (users : Users) (h : Heap)
    (hc : ∃ c ∈ users.chans, (h c).closed = true) :
    ∃ pre id c post, users = pre ++ (id, some c) :: post ∧ (h c).closed = true ∧
      noClosed pre h := by
  induction users with
  | nil => simp [Users.chans] at hc
  | cons e rest ih =>
    obtain ⟨k, ch⟩ := e
    cases ch with
    | none =>
      obtain ⟨pre, id, c, post, hu, hcl, hn⟩ := ih (by simpa [Users.chans] using hc)
      refine ⟨(k, none) :: pre, id, c, post, by rw [hu]; rfl, hcl, ?_⟩
      simpa [noClosed, Users.chans] using hn
    | some d =>
      by_cases hd : (h d).closed = true
      · exact ⟨[], k, d, rest, rfl, hd, by simp [noClosed, Users.chans]⟩
      · have hrest : ∃ c ∈ Users.chans rest, (h c).closed = true := by
          obtain ⟨c, hcm, hcl⟩ := hc
          simp only [Users.chans, List.filterMap_cons, List.mem_cons] at hcm
          rcases hcm with rfl | hcm
          · exact absurd hcl hd
          · exact ⟨c, hcm, hcl⟩
        obtain ⟨pre, id, c, post, hu, hcl, hn⟩ := ih hrest
        refine ⟨(k, some d) :: pre, id, c, post, by rw [hu]; rfl, hcl, ?_⟩
        have hd2 : (h d).closed = false := by simpa using hd
        intro x hx
        simp only [Users.chans, List.filterMap_cons, List.mem_cons] at hx
        rcases hx with rfl | hx
        · exact hd2
        · exact hn x hx

theorem Run_input_unicast (s : State) (m : Message) (rest : List Message) (recv : ChanRef)
    (hin : s.input = m :: rest) (hb : m.Broadcast = false)
    (hl : s.users.lookup m.Recipient = some recv) :
    Run_input s = some (Run_send { s with input := rest } recv m) := by
  rw [Run_input_cons s m rest hin]
  simp [Run_send, dispatch, hb, hl]

/-- C9, amended: a closed channel is a panic, not a skip.  Every non-blocking
send of a dispatch panics exactly when the channel it sends on is closed when
the send is made.  A unicast dispatch is a lookup and then one send on the
channel the lookup found: that send, in whatever state it is made, panics
exactly when that channel is closed then (the recipient may have been
unregistered since the lookup), and then delivers nothing.  A broadcast
dispatch panics exactly when its loop reaches an entry whose channel is closed
at that send, which it does whenever some registered channel is closed: only
channels visited before that entry can have received the message.  After the
panic the loop makes no further step.  The dispatch never closes or reopens a
channel. -/
theorem closed_channel_panics (s : State) (m : Message) (rest : List Message)
    (hin : s.input = m :: rest) :
    ∃ s1, Run_input s = some s1 ∧ s1.users = s.users ∧
      (∀ (h : Heap) (ch : ChanRef),
        trySend h ch m = TrySend.panic ↔ ∃ c, ch = some c ∧ (h c).closed = true) ∧
      (m.Broadcast = false → s.users.lookup m.Recipient = none → s1.panicked = false) ∧
      (∀ recv, m.Broadcast = false → s.users.lookup m.Recipient = some recv →
        s1 = Run_send { s with input := rest } recv m) ∧
      (∀ (t : State) (recv : ChanRef),
        ((Run_send t recv m).panicked = true ↔
          ∃ c, recv = some c ∧ (t.heap c).closed = true) ∧
        ((Run_send t recv m).panicked = true →
          (Run_send t recv m).heap = t.heap ∧ (Run_send t recv m).log = t.log ∧
          Run_iter (Run_send t recv m) = []) ∧
        (Run_send t recv m).users = t.users ∧
        (∀ c, ((Run_send t recv m).heap c).closed = (t.heap c).closed)) ∧
      (m.Broadcast = true →
        (s1.panicked = true ↔
          ∃ pre id c post, s.users = pre ++ (id, some c) :: post ∧
            (broadcastLoop m pre s.heap).panicked = false ∧
            ((broadcastLoop m pre s.heap).heap c).closed = true)) ∧
      (m.Broadcast = true → (∃ c ∈ s.users.chans, (s.heap c).closed = true) →
        s1.panicked = true) ∧
      (∀ pre post id c, m.Broadcast = true → s.users = pre ++ (id, some c) :: post →
        (s.heap c).closed = true → noClosed pre s.heap →
        ∀ x, x ∉ Users.chans pre → s1.heap x = s.heap x) ∧
      (s1.panicked = true → Run_iter s1 = []) ∧
      (∀ c, (s1.heap c).closed = (s.heap c).closed) := by
  refine ⟨_, Run_input_cons s m rest hin, rfl, fun h ch => trySend_panic_iff h ch m,
    ?habs, ?huni, ?hsend, ?hiff, ?hany, ?hpre, ?hstop, ?hcl⟩
  case habs =>
    intro hb hl
    simp only [dispatch_absent _ _ _ hb hl]
  case huni =>
    intro recv hb hl
    have h1 := Run_input_unicast s m rest recv hin hb hl
    rw [Run_input_cons s m rest hin] at h1
    exact Option.some.inj h1
  case hsend =>
    intro t recv
    refine ⟨unicastSend_panicked_iff t.heap recv m, ?_, rfl,
      fun c => unicastSend_closed_eq t.heap recv m c⟩
    intro hp
    have hp2 : (unicastSend t.heap recv m).panicked = true := hp
    obtain ⟨e1, e2⟩ := unicastSend_of_panicked t.heap recv m hp2
    refine ⟨e1, ?_, ?_⟩
    · show t.log ++ (unicastSend t.heap recv m).delivered.map (fun c => (c, m)) = t.log
      rw [e2]; simp
    · simp [Run_iter, hp]
  case hiff =>
    intro hb
    simp only [dispatch_broadcast _ _ _ hb]
    rw [broadcastLoop_panicked_iff]
    constructor
    · intro hc
      obtain ⟨pre, id, c, post, hu, hcl, hn⟩ := first_closed s.users s.heap hc
      refine ⟨pre, id, c, post, hu, ?_, ?_⟩
      · cases hpp : (broadcastLoop m pre s.heap).panicked with
        | false => rfl
        | true =>
          obtain ⟨x, hx, hxc⟩ := (broadcastLoop_panicked_iff m pre s.heap).1 hpp
          rw [hn x hx] at hxc; cases hxc
      · rw [broadcastLoop_heap]; exact hcl
    · rintro ⟨pre, id, c, post, hu, -, hcl⟩
      rw [broadcastLoop_heap] at hcl
      refine ⟨c, ?_, hcl⟩
      rw [hu]
      simp [Users.chans]
  case hany =>
    intro hb hc
    simp only [dispatch_broadcast _ _ _ hb]
    exact (broadcastLoop_panicked_iff m s.users s.heap).2 hc
  case hpre =>
    intro pre post id c hb hu hc hn x hx
    simp only [dispatch_broadcast _ _ _ hb, hu]
    rw [(broadcastLoop_append_closed m pre post id c s.heap hc hn).1]
    exact broadcastLoop_heap_of_not_mem m pre s.heap x hx
  case hstop =>
    intro hp
    simp only [Run_iter]
    simp only at hp
    simp [hp]
  case hcl => exact fun c => dispatch_closed_eq s.users s.heap m c

theorem closed_channel_panics_witness :
    List.lookup "bob" (mkState [msgBob] [("bob", some 0)] (openHeap 1)).users
      = some (some 0) ∧
    noClosed (mkState [msgBob] [("bob", some 0)] (openHeap 1)).users (openHeap 1) ∧
    noClosed
      (step (step (mkState [] [("bob", some 0)] (openHeap 1)) (Op.unregister "bob"))
        (Op.env closedHeap)).users closedHeap ∧
    (Run_send
      (step (step (mkState [] [("bob", some 0)] (openHeap 1)) (Op.unregister "bob"))
        (Op.env closedHeap))
      (some 0) msgBob).panicked = true := by
  obtain ⟨s1, -, -, -, -, -, h, -⟩ :=
    closed_channel_panics (mkState [msgBob] [("bob", some 0)] (openHeap 1)) msgBob [] rfl
  exact ⟨by decide, by decide, by decide,
    (h (step (step (mkState [] [("bob", some 0)] (openHeap 1)) (Op.unregister "bob"))
      (Op.env closedHeap)) (some 0)).1.2 ⟨0, rfl, by decide⟩⟩

/-- C9 as stated fails.  A unicast to `"bob"`, whose channel 0 is closed: the
dispatch panics and the loop makes no further step although a message is
still queued.  A broadcast with `"bob"` (closed channel 0) visited before
`"eve"` (open channel 1 with room): the dispatch panics and channel 1 does not
receive the message. -/
theorem closed_channel_counterexample :
    (Run_input (mkState [msgBob, msgAll] [("bob", some 0), ("eve", some 1)] closedHeap)).map
        (fun s1 => (s1.panicked, s1.input, (Run_iter s1).length))
      = some (true, [msgAll], 0) ∧
    (closedHeap 1).closed = false ∧ (closedHeap 1).hasRoom = true ∧
    (Run_input (mkState [msgAll] [("bob", some 0), ("eve", some 1)] closedHeap)).map
        (fun s1 => (s1.panicked, (s1.heap 1).buf))
      = some (true, []) := by
  decide

theorem unregister_idempotent_witness :
    UnregisterUser (mkState [] [("eve", some 0)] (openHeap 1)) "bob"
      = mkState [] [("eve", some 0)] (openHeap 1) :=
  (unregister_idempotent (mkState [] [("eve", some 0)] (openHeap 1)) "bob").2.1 (by decide)

theorem SendMessage_resolves_iff_witness :
    SendMessage (State.init none (openHeap 1)) msgBob ≠ [] :=
  (SendMessage_resolves_iff (State.init none (openHeap 1)) msgBob).2
    (Or.inr (Or.inl (by decide)))

end Chatcore
